import Mathlib

/-!
Verification of the core of the BSE connector repository: the security
resolver (`src/bse_connector/resolver.py`) and the document cache with
smart chunking and chunk retrieval (`src/bse_connector/cache.py`).

The Python code is shallowly embedded: pure functions become Lean
functions, the SQLite store becomes explicit state (lists of rows in
insertion order), Python dicts become association lists with
insert-or-overwrite-in-place semantics, and the regular expressions used
by the chunker are interpreted by a small Brzozowski-derivative engine.
Scores are rationals; sizes and counts are naturals.
-/

/-! ## Python string primitives -/

/-- Python `str.lower()` restricted to ASCII, as used on ASCII data here. -/
def pyLower (s : String) : String := String.mk (s.data.map Char.toLower)

/-- Python `str.upper()` restricted to ASCII. -/
def pyUpper (s : String) : String := String.mk (s.data.map Char.toUpper)

/-- Characters removed by Python `str.strip()` (ASCII whitespace). -/
def pySpace (c : Char) : Bool :=
  c = ' ' || c = '\t' || c = '\n' || c = '\r' || c = '\x0b' || c = '\x0c'

/-- Strip whitespace from both ends of a character list. -/
def stripL (l : List Char) : List Char :=
  ((l.dropWhile pySpace).reverse.dropWhile pySpace).reverse

/-- Python `str.strip()`. -/
def pyStrip (s : String) : String := String.mk (stripL s.data)

/-- Python `str.isdigit()`: non-empty and all digits (ASCII model). -/
def pyIsDigit (s : String) : Bool := !s.data.isEmpty && s.data.all Char.isDigit

/-- Python `needle in hay` substring test on character lists. -/
def containsL (needle : List Char) : List Char → Bool
  | [] => needle.isEmpty
  | c :: t => needle.isPrefixOf (c :: t) || containsL needle t

/-- Python `needle in hay` on strings. -/
def strContains (hay needle : String) : Bool := containsL needle.data hay.data

/-- Python `s.startswith(pre)`. -/
def pyStartsWith (s pre : String) : Bool := pre.data.isPrefixOf s.data

/-- Association list with Python-dict semantics: overwrite in place keeps the
original insertion position of the key; a new key is appended at the end. -/
def dinsert {α : Type} (k : String) (v : α) : List (String × α) → List (String × α)
  | [] => [(k, v)]
  | kv :: rest => if kv.1 = k then (k, v) :: rest else kv :: dinsert k v rest

/-- Python dict lookup (`d.get(k)`). -/
def alookup {α : Type} : List (String × α) → String → Option α
  | [], _ => none
  | kv :: rest, k => if kv.1 = k then some kv.2 else alookup rest k

/-- Insert into a sorted list after every element that compares
less-or-equal, keeping ties in their original relative order. -/
def insSorted {α : Type} (le : α → α → Bool) (x : α) : List α → List α
  | [] => [x]
  | y :: ys => if le y x then y :: insSorted le x ys else x :: y :: ys

/-- Stable sort (insertion sort).  Python's `list.sort` and SQLite's
`ORDER BY` scan are modelled by a stable sort; for a total, transitive
boolean relation any stable sort yields this same list. -/
def stableSort {α : Type} (le : α → α → Bool) (l : List α) : List α :=
  l.foldr (insSorted le) []

/-- Lexicographic less-or-equal on character lists by code point: Python
string comparison, and SQLite text comparison on the (ASCII) data used
here. -/
def lexLe : List Char → List Char → Bool
  | [], _ => true
  | _ :: _, [] => false
  | x :: xs, y :: ys => if x = y then lexLe xs ys else decide (x < y)

/-- Python `a <= b` on strings. -/
def pyStrLe (a b : String) : Bool := lexLe a.data b.data

/-! ## Regular-expression engine

A minimal regex AST sufficient for the patterns in `cache.py`, with
Brzozowski-derivative matching.  `nchr c` is the character class of all
characters except `c` (so a Python character class such as the one used in
the page marker, and also `.` which is every character except a newline).
-/

inductive Re : Type where
  | zero : Re
  | eps : Re
  | chr : Char → Re
  | nchr : Char → Re
  | digit : Re
  | seq : Re → Re → Re
  | alt : Re → Re → Re
  | star : Re → Re
deriving DecidableEq, Repr

/-- Does the regex accept the empty string? -/
def Re.nullable : Re → Bool
  | .zero => false
  | .eps => true
  | .chr _ => false
  | .nchr _ => false
  | .digit => false
  | .seq a b => a.nullable && b.nullable
  | .alt a b => a.nullable || b.nullable
  | .star _ => true

/-- Brzozowski derivative of a regex by one character. -/
def Re.deriv : Re → Char → Re
  | .zero, _ => .zero
  | .eps, _ => .zero
  | .chr c, x => if x = c then .eps else .zero
  | .nchr c, x => if x = c then .zero else .eps
  | .digit, x => if x.isDigit then .eps else .zero
  | .seq a b, x => if a.nullable then .alt (.seq (a.deriv x) b) (b.deriv x) else .seq (a.deriv x) b
  | .alt a b, x => .alt (a.deriv x) (b.deriv x)
  | .star a, x => .seq (a.deriv x) (.star a)

/-- Syntactic check that a regex denotes the empty language. -/
def Re.empt : Re → Bool
  | .zero => true
  | .eps => false
  | .chr _ => false
  | .nchr _ => false
  | .digit => false
  | .seq a b => a.empt || b.empt
  | .alt a b => a.empt && b.empt
  | .star _ => false

/-- Does some prefix of the list match the regex? -/
def matchPre (r : Re) : List Char → Bool
  | [] => r.nullable
  | c :: cs => r.nullable || matchPre (r.deriv c) cs

/-- Python `re.search`: does the regex match at some position? -/
def reSearch (r : Re) : List Char → Bool
  | [] => r.nullable
  | c :: cs => matchPre r (c :: cs) || reSearch r cs

/-- Length of the longest prefix match, scanning with derivatives.
`pos` counts consumed characters, `best` is the best match seen so far. -/
def longestAux (r : Re) (l : List Char) (pos : Nat) (best : Option Nat) : Option Nat :=
  let best' := if r.nullable then some pos else best
  match l with
  | [] => best'
  | c :: cs => longestAux (r.deriv c) cs (pos + 1) best'

/-- Leftmost-longest prefix match length, as produced by Python's matcher on
the page-marker pattern (where backtracking and longest match coincide). -/
def longestPre (r : Re) (l : List Char) : Option Nat := longestAux r l 0 none

/-- Python `re.split` (for a pattern that cannot match the empty string):
split at each leftmost match, dropping the matched text.  `acc` is the
current segment, reversed.  The fuel argument bounds the number of steps;
it is initialized to the input length, which always suffices since every
step consumes at least one character. -/
def reSplitF (r : Re) : Nat → List Char → List Char → List (List Char)
  | _, acc, [] => [acc.reverse]
  | 0, acc, l => [acc.reverse ++ l]
  | fuel + 1, acc, c :: cs =>
    match longestPre r (c :: cs) with
    | some (n + 1) => acc.reverse :: reSplitF r fuel [] (cs.drop n)
    | _ => reSplitF r fuel (c :: acc) cs

/-- Python `re.split` entry point. -/
def reSplit (r : Re) (l : List Char) : List (List Char) := reSplitF r l.length [] l

/-- Sequence a list of regexes. -/
def seqList : List Re → Re
  | [] => .eps
  | [r] => r
  | r :: rs => .seq r (seqList rs)

/-- Alternation of a list of regexes. -/
def altList : List Re → Re
  | [] => .zero
  | [r] => r
  | r :: rs => .alt r (altList rs)

/-- Literal string as a regex. -/
def lits (s : String) : Re := seqList (s.data.map Re.chr)

/-- Regex `r?`. -/
def reOpt (r : Re) : Re := .alt .eps r

/-- Regex `r+`. -/
def rePlus (r : Re) : Re := .seq r (.star r)

/-- Regex `.` (any character except newline). -/
def reDot : Re := .nchr '\n'

/-! ## Security records and the in-memory index (`resolver.py`)

`Security` is a row of the `securities` table as returned by
`load_securities` (normalized field names).  `Match` is the dict built by
`SecurityIndex._format_result`.
-/

structure Security : Type where
  scrip_code : String
  scrip_id : String
  scrip_name : String
  issuer_name : String
  scrip_group : String
  isin : String
deriving DecidableEq, Repr

structure Match : Type where
  scrip_code : String
  scrip_id : String
  name : String
  issuer_name : String
  group : String
  isin : String
  score : ℚ
deriving DecidableEq, Repr

/-- Embeds `SecurityIndex._format_result`. -/
def formatResult (sec : Security) (score : ℚ) : Match :=
  { scrip_code := sec.scrip_code, scrip_id := sec.scrip_id, name := sec.scrip_name,
    issuer_name := sec.issuer_name, group := sec.scrip_group, isin := sec.isin,
    score := score }

/-- The in-memory state built by `SecurityIndex._build_index`. -/
structure Index : Type where
  securities : List Security
  by_code : List (String × Security)
  by_isin : List (String × Security)
  by_symbol : List (String × Security)
  search_corpus : List String

/-- One iteration of the loop in `_build_index`. -/
def buildStep (st : Index) (sec : Security) : Index :=
  let st1 := if sec.scrip_code ≠ "" then { st with by_code := dinsert sec.scrip_code sec st.by_code } else st
  let st2 := if sec.isin ≠ "" then { st1 with by_isin := dinsert (pyUpper sec.isin) sec st1.by_isin } else st1
  let st3 := if sec.scrip_id ≠ "" then { st2 with by_symbol := dinsert (pyUpper sec.scrip_id) sec st2.by_symbol } else st2
  let parts := [sec.scrip_id, sec.scrip_name, sec.issuer_name].filter (fun p => p ≠ "")
  { st3 with search_corpus := st3.search_corpus ++ [String.intercalate " | " parts] }

/-- Embeds `SecurityIndex._build_index`. -/
def buildIndex (securities : List Security) : Index :=
  securities.foldl buildStep
    { securities := securities, by_code := [], by_isin := [], by_symbol := [], search_corpus := [] }

/-- The ISIN pattern of `resolver.py` (`re.match` of two letters then ten
alphanumerics, case-insensitive, on the already-stripped query). -/
def isinLike (q : String) : Bool :=
  q.data.length = 12 && (q.data.take 2).all Char.isAlpha
    && (q.data.drop 2).all (fun c => c.isAlpha || c.isDigit)

/-- The `group_order` ranking used for tie-breaking in `resolve`. -/
def groupOrder (g : String) : Nat :=
  if g = "A" then 0 else if g = "B" then 1 else if g = "T" then 2 else if g = "M" then 3 else 9

/-- Sort relation for the symbol tier: group priority, then symbol
length, then name (Python tuple comparison). -/
def pmLe (a b : Match) : Bool :=
  decide (groupOrder a.group < groupOrder b.group ∨
    (groupOrder a.group = groupOrder b.group ∧
      (a.scrip_id.length < b.scrip_id.length ∨
        (a.scrip_id.length = b.scrip_id.length ∧ pyStrLe a.name b.name = true))))

/-- Sort relation for the name-substring tier: name length, then group
priority. -/
def nmLe (a b : Match) : Bool :=
  decide (a.name.length < b.name.length ∨
    (a.name.length = b.name.length ∧ groupOrder a.group ≤ groupOrder b.group))

/-- The body of `SecurityIndex.resolve` after `_ensure_loaded`.  The fuzzy
tier calls `rapidfuzz.process.extract` with the `WRatio` scorer, an external
library, modelled as the abstract parameter `fuzzy`. -/
def resolveLoaded (idx : Index) (fuzzy : Index → String → Nat → ℚ → List Match)
    (top_n : Nat) (cutoff : ℚ) (query : String) : List Match :=
  let q := pyStrip query
  if q = "" then []
  else if pyIsDigit q then
    match alookup idx.by_code q with
    | some sec => [formatResult sec 100]
    | none => []
  else if isinLike q then
    match alookup idx.by_isin (pyUpper q) with
    | some sec => [formatResult sec 100]
    | none => []
  else
    match alookup idx.by_symbol (pyUpper q) with
    | some sec => [formatResult sec 100]
    | none =>
      let qU := pyUpper q
      let pm := (idx.by_symbol.filter (fun kv => pyStartsWith kv.1 qU)).map
        (fun kv => formatResult kv.2 95)
      if pm = [] then
        let qL := pyLower q
        let nm := (idx.securities.filter (fun sec =>
            strContains (pyLower sec.scrip_name) qL || strContains (pyLower sec.issuer_name) qL)).map
          (fun sec => formatResult sec 90)
        if nm = [] then fuzzy idx q top_n cutoff
        else (stableSort nmLe nm).take top_n
      else (stableSort pmLe pm).take top_n

/-! ## Securities store, freshness, and `_ensure_loaded`

The `securities` table is a list of rows, each carrying its age in hours
(derived from its `cached_at` timestamp).  `get_securities_age` takes the
oldest row, hence the maximal age.  A provider handle is modelled as the
per-group results of `bse.listSecurities` (a group whose fetch raised
contributes nothing, as the exception is logged and skipped).
-/

def SECURITIES_TTL_HOURS : ℚ := 24

/-- The securities table: rows with their current age in hours. -/
abbrev SecStore : Type := List (Security × ℚ)

/-- Embeds `get_securities_age`: `None` when the table is empty, otherwise the age
of the oldest row. -/
def get_securities_age : SecStore → Option ℚ
  | [] => none
  | r :: rs => some (rs.foldl (fun m p => max m p.2) r.2)

/-- Embeds `load_securities`. -/
def load_securities (s : SecStore) : List Security := s.map (fun r => r.1)

/-- One upsert of `save_securities` (`INSERT OR REPLACE` keyed on
`scrip_code`); the fresh row has age 0. -/
def storeInsert (sec : Security) : SecStore → SecStore
  | [] => [(sec, 0)]
  | r :: rs => if r.1.scrip_code = sec.scrip_code then (sec, 0) :: rs else r :: storeInsert sec rs

/-- Embeds `save_securities`: delete all rows, then insert each record. -/
def save_securities (secs : List Security) : SecStore :=
  secs.foldl (fun st sec => storeInsert sec st) []

/-- The de-duplication loop of `_fetch_and_cache` over the per-group fetch
results: keep a record when its code is non-empty and unseen. -/
def fetchAll (perGroup : List (List Security)) : List Security :=
  (perGroup.flatten.foldl
    (fun (acc : List Security × List String) sec =>
      if sec.scrip_code ≠ "" ∧ ¬ acc.2.contains sec.scrip_code
      then (acc.1 ++ [sec], acc.2 ++ [sec.scrip_code]) else acc)
    ([], [])).1

/-- Embeds `SecurityIndex._fetch_and_cache`: save and rebuild from the fetched
universe; on an empty fetch fall back to the stale cache; with nothing at
all the method returns without building (modelled as an empty index for the
current call). -/
def fetch_and_cache (st : SecStore) (perGroup : List (List Security)) : SecStore × Index :=
  let all := fetchAll perGroup
  if all ≠ [] then
    let st2 := save_securities all
    (st2, buildIndex (load_securities st2))
  else if load_securities st ≠ [] then (st, buildIndex (load_securities st))
  else (st, buildIndex [])

/-- Embeds `SecurityIndex._ensure_loaded` on a not-yet-loaded index: serve a fresh
cache; otherwise with no provider serve any cached rows (stale included) or
raise `RuntimeError`; otherwise fetch from the provider. -/
def ensure_loaded (st : SecStore) (bse : Option (List (List Security))) :
    Except String (SecStore × Index) :=
  let fresh := match get_securities_age st with
    | some a => decide (a < SECURITIES_TTL_HOURS)
    | none => false
  if fresh = true ∧ load_securities st ≠ [] then .ok (st, buildIndex (load_securities st))
  else match bse with
    | none =>
      if load_securities st ≠ [] then .ok (st, buildIndex (load_securities st))
      else .error "No cached securities and no BSE instance to fetch them"
    | some perGroup => .ok (fetch_and_cache st perGroup)

/-- Embeds `SecurityIndex.resolve`: ensure the index is loaded, then run the pure
resolution body.  A raised `RuntimeError` is the `error` case. -/
def resolve (st : SecStore) (bse : Option (List (List Security)))
    (fuzzy : Index → String → Nat → ℚ → List Match) (top_n : Nat) (cutoff : ℚ)
    (query : String) : Except String (List Match) :=
  (ensure_loaded st bse).map (fun p => resolveLoaded p.2 fuzzy top_n cutoff query)

/-! ## Smart chunking (`create_smart_chunks`)

The cue patterns of `cache.py`, written over the lowercased page text
(each Python pattern carries `(?i)` and is matched against `page.lower()`,
so lowercase literals are exact).  `\d{2,4}` is desugared to
two digits followed by two optional digits, and `\d+` to a digit followed
by a starred digit; both preserve the matched language.
-/

def guidanceRe1 : Re := altList [lits "outlook", lits "guidance", lits "future",
  seqList [lits "forward", reDot, lits "looking"], seqList [lits "growth", reDot, lits "plan"],
  lits "expansion", lits "target", lits "goal", lits "expect", lits "anticipate"]

def guidanceRe2 : Re := altList [
  seqList [lits "fy", Re.digit, Re.digit, reOpt Re.digit, reOpt Re.digit],
  seqList [lits "next", reDot, lits "year"], seqList [lits "coming", reDot, lits "quarter"],
  lits "pipeline"]

def financialsRe1 : Re := altList [lits "revenue", lits "ebitda", lits "profit",
  lits "margin", lits "eps", lits "earning", lits "crore", lits "billion", lits "million",
  Re.seq (rePlus Re.digit) (Re.chr '%')]

def financialsRe2 : Re := altList [lits "yoy", lits "qoq", lits "growth",
  lits "decline", lits "increase", lits "decrease"]

def qaRe1 : Re := altList [lits "question", lits "answer", lits "q:", lits "a:",
  lits "analyst", lits "participant"]

def qaRe2 : Re := altList [lits "could you", lits "can you", lits "what is",
  lits "how do", lits "why did"]

def segmentRe1 : Re := altList [lits "segment",
  seqList [lits "business", reDot, lits "unit"], lits "division", lits "vertical"]

def segmentRe2 : Re := altList [lits "retail", lits "digital", lits "jio",
  lits "o2c", lits "energy", lits "telecom"]

def summaryRe1 : Re := altList [lits "highlight",
  seqList [lits "key", reDot, lits "point"], lits "summary", lits "overview",
  seqList [lits "at", reDot, lits "a", reDot, lits "glance"]]

/-- The `patterns` dict of `create_smart_chunks`, in insertion order. -/
def patternTable : List (String × List Re) :=
  [("guidance", [guidanceRe1, guidanceRe2]),
   ("financials", [financialsRe1, financialsRe2]),
   ("qa", [qaRe1, qaRe2]),
   ("segment", [segmentRe1, segmentRe2]),
   ("summary", [summaryRe1])]

/-- The classification loop of `create_smart_chunks`: the first type with at
least one matching pattern, else `"general"`. -/
def detectGo : List (String × List Re) → String → String
  | [], _ => "general"
  | (ty, ps) :: rest, pl =>
    if 1 ≤ ps.countP (fun p => reSearch p pl.data) then ty else detectGo rest pl

/-- Classify one lowercased page. -/
def detectType (pl : String) : String := detectGo patternTable pl

/-- The page-boundary marker used by `re.split` in `create_smart_chunks`. -/
def pageMarker : Re :=
  seqList [lits "--- Page ", rePlus Re.digit, Re.star (Re.nchr '-'), lits "---"]

/-- Split a document text into page segments. -/
def pagesOf (text : String) : List String := (reSplit pageMarker text.data).map String.mk

/-- A chunk as produced by `create_smart_chunks` (the `type`/`content`
dicts). -/
structure PChunk : Type where
  type : String
  content : String
deriving DecidableEq, Repr

def MAX_CHUNK_SIZE : Nat := 4000

/-- Python `"\n".join`. -/
def joinNL : List String → String
  | [] => ""
  | [s] => s
  | s :: rest => s ++ "\n" ++ joinNL rest

/-- State of the chunking loop: accumulated chunks, current pages,
current type, current size. -/
abbrev ChunkState : Type := List PChunk × List String × String × Nat

/-- One iteration of the page loop in `create_smart_chunks`. -/
def chunkStep (st : ChunkState) (page : String) : ChunkState :=
  let (chunks, cur, curType, size) := st
  if pyStrip page = "" then st
  else
    let detected := detectType (pyLower page)
    if detected ≠ curType ∨ size + page.length > MAX_CHUNK_SIZE then
      let chunks2 := if cur ≠ [] then chunks ++ [⟨curType, joinNL cur⟩] else chunks
      (chunks2, [page], detected, page.length)
    else
      (chunks, cur ++ [page], curType, size + page.length)

/-- Embeds `create_smart_chunks` (its `doc_type` parameter is taken but unused, as
in the source). -/
def create_smart_chunks (text : String) (doc_type : String) : List PChunk :=
  let st := (pagesOf text).foldl chunkStep ([], [], "general", 0)
  if st.2.1 ≠ [] then st.1 ++ [⟨st.2.2.1, joinNL st.2.1⟩] else st.1

/-! ## Document store (`cache.py`) -/

structure DocRow : Type where
  id : String
  company_code : String
  company_name : String
  doc_type : String
  headline : String
  url : String
  date : String
  full_text : String
  pages : Nat
  ocr_used : Bool
  cached_at : String
  file_size : Nat
deriving DecidableEq, Repr

structure ChunkRow : Type where
  doc_id : String
  chunk_type : String
  chunk_index : Nat
  content : String
deriving DecidableEq, Repr

/-- The two record sets of the document cache, rows in insertion order. -/
structure DocStore : Type where
  documents : List DocRow
  chunks : List ChunkRow
deriving DecidableEq, Repr

/-- Modelled from the source's `hashlib.md5(url.encode()).hexdigest()`: the
hash is an external stdlib primitive; what the cache relies on is that the
id is a deterministic function of the URL, modelled injectively. -/
def doc_id_from_url (url : String) : String := "md5-" ++ url

/-- Descending-date comparison used by `ORDER BY date DESC` (SQLite binary
text comparison; ties keep scan order, modelled by a stable sort). -/
def dateDesc (a b : String) : Bool := pyStrLe b a

/-- Embeds `get_company_documents`. -/
def get_company_documents (st : DocStore) (code : String)
    (doc_types : Option (List String)) : List DocRow :=
  let base := st.documents.filter (fun d => d.company_code = code)
  let base2 : List DocRow := match doc_types with
    | some tys => base.filter (fun d => tys.contains d.doc_type)
    | none => base
  stableSort (fun a b => dateDesc a.date b.date) base2

/-- Chunk rows inserted by `cache_document` for a fresh chunk list. -/
def docRowsOf (docId : String) (cs : List PChunk) : List ChunkRow :=
  cs.enum.map (fun ic =>
    { doc_id := docId, chunk_type := ic.2.type, chunk_index := ic.1, content := ic.2.content })

/-- Embeds `cache_document`: upsert the document row (`INSERT OR REPLACE` on the
id), delete that id's chunks, recompute and insert fresh chunks, return the
id.  `now` stands for `datetime.now().isoformat()`. -/
def cache_document (st : DocStore) (url company_code company_name doc_type headline date
    full_text : String) (pages : Nat) (ocr_used : Bool) (now : String) : DocStore × String :=
  let docId := doc_id_from_url url
  let row : DocRow :=
    { id := docId, company_code := company_code, company_name := company_name,
      doc_type := doc_type, headline := headline, url := url, date := date,
      full_text := full_text, pages := pages, ocr_used := ocr_used, cached_at := now,
      file_size := full_text.length }
  let docs := st.documents.filter (fun d => d.id ≠ docId) ++ [row]
  let kept := st.chunks.filter (fun c => c.doc_id ≠ docId)
  let cs := create_smart_chunks full_text doc_type
  ({ documents := docs, chunks := kept ++ docRowsOf docId cs }, docId)

/-! ## Chunk retrieval (`get_relevant_chunks`) -/

/-- A row of the result of `get_relevant_chunks`. -/
structure RetChunk : Type where
  chunk_type : String
  document_type : String
  document_date : String
  headline : String
  company : String
  content : String
deriving DecidableEq, Repr

def fmtRow (r : ChunkRow × DocRow) : RetChunk :=
  { chunk_type := r.1.chunk_type, document_type := r.2.doc_type, document_date := r.2.date,
    headline := r.2.headline, company := r.2.company_name, content := r.1.content }

/-- The per-type SQL query of `get_relevant_chunks`: chunks joined to their
documents, filtered by company and chunk type, ordered by document date
descending. -/
def rowsFor (st : DocStore) (code ty : String) : List (ChunkRow × DocRow) :=
  stableSort (fun a b => dateDesc a.2.date b.2.date)
    (st.chunks.filterMap (fun c =>
      match st.documents.find? (fun d => d.id = c.doc_id) with
      | some d => if d.company_code = code ∧ c.chunk_type = ty then some (c, d) else none
      | none => none))

/-- The keyword-based chunk-type inference of `get_relevant_chunks`. -/
def inferTypes (ql : String) : List String :=
  let ct : List String := []
  let ct := if ["future", "plan", "outlook", "guidance", "expect", "target", "growth"].any
    (fun w => strContains ql w) then ct ++ ["guidance", "summary"] else ct
  let ct := if ["revenue", "profit", "margin", "financial", "result", "earning"].any
    (fun w => strContains ql w) then ct ++ ["financials", "summary"] else ct
  let ct := if ["management", "said", "comment", "question", "answer"].any
    (fun w => strContains ql w) then ct ++ ["qa", "guidance"] else ct
  let ct := if ["segment", "business", "retail", "jio", "digital"].any
    (fun w => strContains ql w) then ct ++ ["segment"] else ct
  if ct = [] then ["guidance", "summary", "financials"] else ct

/-- Python `list(dict.fromkeys(l))`: de-duplicate keeping first occurrences. -/
def pyDedup (l : List String) : List String :=
  l.foldl (fun acc x => if acc.contains x then acc else acc ++ [x]) []

/-- The inner row loop of `get_relevant_chunks`: stop once the result is
full or the budget is reached; append a row only when it fits the
character budget. -/
def selectRows (maxChunks maxChars : Nat) :
    List (ChunkRow × DocRow) → List RetChunk → Nat → List RetChunk × Nat
  | [], results, total => (results, total)
  | r :: rs, results, total =>
    if maxChunks ≤ results.length ∨ maxChars ≤ total then (results, total)
    else if total + r.1.content.length ≤ maxChars then
      selectRows maxChunks maxChars rs (results ++ [fmtRow r]) (total + r.1.content.length)
    else
      selectRows maxChunks maxChars rs results total

/-- The outer type loop of `get_relevant_chunks`. -/
def selectTypes (st : DocStore) (code : String) (maxChunks maxChars : Nat) :
    List String → List RetChunk → Nat → List RetChunk
  | [], results, _ => results
  | ty :: tys, results, total =>
    if maxChunks ≤ results.length ∨ maxChars ≤ total then results
    else
      let p := selectRows maxChunks maxChars (rowsFor st code ty) results total
      selectTypes st code maxChunks maxChars tys p.1 p.2

/-- Embeds `get_relevant_chunks`. -/
def get_relevant_chunks (st : DocStore) (company_code query : String)
    (chunk_types : Option (List String)) (maxChunks maxChars : Nat) : List RetChunk :=
  let ql := pyLower query
  let ctypes := pyDedup (match chunk_types with
    | none => inferTypes ql
    | some l => l)
  if get_company_documents st company_code none = [] then []
  else selectTypes st company_code maxChunks maxChars ctypes [] 0

/-! ## Specification-side definitions

These definitions follow the wording of the specification (tier list tried
in a fixed order, first non-empty result returned; greedy budget-bounded
chunk selection) and are compared with the source-derived functions by the
refinement theorems below.
-/

/-- Tier 1 of the spec: purely numeric query, exact code lookup, score 100
on hit and an empty result otherwise; inapplicable to non-numeric
queries. -/
def tierCode (idx : Index) (q : String) : Option (List Match) :=
  if pyIsDigit q then
    some (match alookup idx.by_code q with
      | some sec => [formatResult sec 100]
      | none => [])
  else none

/-- Tier 2 of the spec: ISIN-shaped query, exact case-insensitive ISIN
lookup, score 100 on hit and an empty result otherwise. -/
def tierIsin (idx : Index) (q : String) : Option (List Match) :=
  if isinLike q then
    some (match alookup idx.by_isin (pyUpper q) with
      | some sec => [formatResult sec 100]
      | none => [])
  else none

/-- Tier 3 of the spec: exact case-insensitive symbol match, score 100. -/
def tierSymbol (idx : Index) (q : String) : Option (List Match) :=
  match alookup idx.by_symbol (pyUpper q) with
  | some sec => some [formatResult sec 100]
  | none => none

/-- Tier 4 of the spec: case-insensitive symbol start match, score 95,
ordered by group priority, then symbol length, then name, truncated to
`top_n`. -/
def tierSymStart (idx : Index) (top_n : Nat) (q : String) : Option (List Match) :=
  let pm := (idx.by_symbol.filter (fun kv => pyStartsWith kv.1 (pyUpper q))).map
    (fun kv => formatResult kv.2 95)
  if pm = [] then none else some ((stableSort pmLe pm).take top_n)

/-- Tier 5 of the spec: case-insensitive substring match against name or
issuer name, score 90, ordered by name length then group priority,
truncated to `top_n`. -/
def tierNameSub (idx : Index) (top_n : Nat) (q : String) : Option (List Match) :=
  let nm := (idx.securities.filter (fun sec =>
      strContains (pyLower sec.scrip_name) (pyLower q) ||
        strContains (pyLower sec.issuer_name) (pyLower q))).map
    (fun sec => formatResult sec 90)
  if nm = [] then none else some ((stableSort nmLe nm).take top_n)

/-- Return the first applicable tier's result; an inapplicable tier is
`none` and is passed over.  Results of different tiers are never merged. -/
def firstHit : List (Option (List Match)) → List Match
  | [] => []
  | none :: rest => firstHit rest
  | some r :: _ => r

/-- The spec's resolution contract: empty query gives an empty result;
otherwise the tiers exact-code, ISIN, exact-symbol, symbol-start,
name/issuer-substring, fuzzy are tried in that fixed order and the first
applicable tier's result is returned unchanged. -/
def tieredResolve (idx : Index) (fuzzy : Index → String → Nat → ℚ → List Match)
    (top_n : Nat) (cutoff : ℚ) (query : String) : List Match :=
  let q := pyStrip query
  if q = "" then []
  else firstHit [tierCode idx q, tierIsin idx q, tierSymbol idx q,
    tierSymStart idx top_n q, tierNameSub idx top_n q, some (fuzzy idx q top_n cutoff)]

/-- A concrete security for witnesses (the spec's end-to-end example). -/
def relSec : Security :=
  { scrip_code := "500325", scrip_id := "RELIANCE", scrip_name := "Reliance Industries Ltd",
    issuer_name := "Reliance Industries Limited", scrip_group := "A", isin := "INE002A01018" }

/-- A trivial fuzzy scorer used only to instantiate witnesses. -/
def fuzzyNil : Index → String → Nat → ℚ → List Match := fun _ _ _ _ => []

/-! ## Greedy characterization of chunk retrieval (C2, C8) -/

/-- The amended selection semantics: walk the candidate rows (all inferred
types concatenated in order, each most-recent-first); stop for good once
the result holds `maxChunks` entries or the running total has reached
`maxChars`; a row whose content would overflow the remaining character
budget is skipped without stopping, so later smaller rows may still be
appended. -/
def greedyPick (maxChunks maxChars : Nat) :
    List (ChunkRow × DocRow) → List RetChunk → Nat → List RetChunk
  | [], results, _ => results
  | r :: rs, results, total =>
    if maxChunks ≤ results.length ∨ maxChars ≤ total then results
    else if total + r.1.content.length ≤ maxChars then
      greedyPick maxChunks maxChars rs (results ++ [fmtRow r]) (total + r.1.content.length)
    else greedyPick maxChunks maxChars rs results total

/-- The spec-side form of `get_relevant_chunks` under the amended claim:
infer and de-duplicate the wanted chunk types, then run the greedy
skip-but-do-not-stop selection over the concatenated candidate rows. -/
def specGreedyRetrieve (st : DocStore) (company_code query : String)
    (chunk_types : Option (List String)) (maxChunks maxChars : Nat) : List RetChunk :=
  let ctypes := pyDedup (match chunk_types with
    | none => inferTypes (pyLower query)
    | some l => l)
  if get_company_documents st company_code none = [] then []
  else greedyPick maxChunks maxChars ((ctypes.map (rowsFor st company_code)).flatten) [] 0

/-- Documents and store for the C2 counterexample: the recent document's
single guidance chunk has 11 characters, the older one's has 5. -/
def cexDoc1 : DocRow :=
  { id := "d1", company_code := "C", company_name := "TestCo", doc_type := "transcript",
    headline := "h1", url := "u1", date := "2024-02-01", full_text := "", pages := 1,
    ocr_used := false, cached_at := "t", file_size := 0 }

def cexDoc2 : DocRow :=
  { id := "d2", company_code := "C", company_name := "TestCo", doc_type := "transcript",
    headline := "h2", url := "u2", date := "2024-01-01", full_text := "", pages := 1,
    ocr_used := false, cached_at := "t", file_size := 0 }

def cexStore : DocStore :=
  { documents := [cexDoc1, cexDoc2],
    chunks := [{ doc_id := "d1", chunk_type := "guidance", chunk_index := 0, content := "AAAAAAAAAAA" },
               { doc_id := "d2", chunk_type := "guidance", chunk_index := 0, content := "BBBBB" }] }

/-- Total content length of a retrieval result. -/
def sumC (l : List RetChunk) : Nat := (l.map (fun c => c.content.length)).sum

/-! ## Smart-chunking classification and merging (C4) -/

/-- The spec's page classification: the first chunk type in the fixed order
guidance, financials, qa, segment, summary for which at least one
case-insensitive cue pattern matches; `"general"` when none match. -/
def specAssignGo : List (String × List Re) → String → String
  | [], _ => "general"
  | (ty, ps) :: rest, pl =>
    if ps.any (fun p => reSearch p pl.data) then ty else specAssignGo rest pl

/-- Classify one page per the spec (case-insensitivity via lowering). -/
def specAssignType (page : String) : String := specAssignGo patternTable (pyLower page)

/-- The spec's merging rule over (page, assigned type) pairs: a change of
assigned type or overflowing the maximum chunk size starts a new chunk,
otherwise the page joins the current chunk. -/
def specMergeStep (st : ChunkState) (pt : String × String) : ChunkState :=
  let (chunks, cur, curType, size) := st
  if pt.2 ≠ curType ∨ size + pt.1.length > MAX_CHUNK_SIZE then
    let chunks2 := if cur ≠ [] then chunks ++ [⟨curType, joinNL cur⟩] else chunks
    (chunks2, [pt.1], pt.2, pt.1.length)
  else
    (chunks, cur ++ [pt.1], curType, size + pt.1.length)

/-- The spec's chunking: classify each non-empty page, then merge
consecutive pages of equal assigned type up to the size limit. -/
def specSmartChunks (text : String) : List PChunk :=
  let typed := ((pagesOf text).filter (fun p => pyStrip p ≠ "")).map
    (fun p => (p, specAssignType p))
  let st := typed.foldl specMergeStep ([], [], "general", 0)
  if st.2.1 ≠ [] then st.1 ++ [⟨st.2.2.1, joinNL st.2.1⟩] else st.1

def zChars : List Char := List.replicate 4001 'z'

def zText : String := String.mk zChars

/-- Total character count of a list of pages. -/
def sumLens (l : List String) : Nat := (l.map String.length).sum

/-- A produced chunk is either within twice the chunk size (minus one) or
is exactly one (possibly oversized) page of the split. -/
def chunkOk (P : List String) (ch : PChunk) : Prop :=
  ch.content.length ≤ 2 * MAX_CHUNK_SIZE - 1 ∨ ch.content ∈ P

/-- Invariant of the current open chunk: its size field is the page-length
sum, its pages are non-blank pages of the document, and with two or more
pages the sum is within the chunk size. -/
def curInv (P : List String) (cur : List String) (size : Nat) : Prop :=
  size = sumLens cur ∧ (∀ p ∈ cur, p ∈ P ∧ p ≠ "") ∧
    (2 ≤ cur.length → size ≤ MAX_CHUNK_SIZE)

/-- Loop invariant of `create_smart_chunks`. -/
def chunkInv (P : List String) (st : ChunkState) : Prop :=
  (∀ ch ∈ st.1, chunkOk P ch) ∧ (st.2.1 = [] → st.2.2.2 = 0) ∧
    (st.2.1 ≠ [] → curInv P st.2.1 st.2.2.2)

/-! ## Theorems -/

/-- C1: over a loaded security set, `resolve` is exactly the spec's ordered,
short-circuiting tier cascade: tiers are tried in the fixed order
exact-code, ISIN, exact-symbol, symbol-prefix, name/issuer-substring,
fuzzy, the first applicable tier's result is returned as-is, so whenever an
earlier tier produced a match no fuzzy-tier match appears and results of
different tiers are never merged. -/
theorem resolve_is_tier_cascade (idx : Index) (fuzzy : Index → String → Nat → ℚ → List Match)
    (top_n : Nat) (cutoff : ℚ) (query : String) :
    resolveLoaded idx fuzzy top_n cutoff query = tieredResolve idx fuzzy top_n cutoff query := by
  unfold resolveLoaded tieredResolve tierCode tierIsin tierSymbol tierSymStart tierNameSub
  by_cases h0 : pyStrip query = ""
  · simp [h0]
  · simp only [h0, if_false]
    by_cases h1 : pyIsDigit (pyStrip query) = true
    · simp [h1, firstHit]
    · simp only [Bool.not_eq_true] at h1
      simp only [h1, Bool.false_eq_true, if_false, firstHit]
      by_cases h2 : isinLike (pyStrip query) = true
      · simp [h2, firstHit]
      · simp only [Bool.not_eq_true] at h2
        simp only [h2, Bool.false_eq_true, if_false, firstHit]
        cases h3 : alookup idx.by_symbol (pyUpper (pyStrip query)) with
        | some sec => simp [firstHit]
        | none =>
          simp only [firstHit]
          by_cases h4 : ((idx.by_symbol.filter (fun kv => pyStartsWith kv.1 (pyUpper (pyStrip query)))).map
              (fun kv => formatResult kv.2 95)) = []
          · by_cases h5 : ((idx.securities.filter (fun sec =>
                strContains (pyLower sec.scrip_name) (pyLower (pyStrip query)) ||
                  strContains (pyLower sec.issuer_name) (pyLower (pyStrip query)))).map
                (fun sec => formatResult sec 90)) = []
            · simp only [h4, h5, if_pos rfl, firstHit]
              simp
            · simp only [h4, if_pos rfl, if_neg h5, firstHit]
              simp
          · simp only [if_neg h4, firstHit]

/-! ## Dictionary and index lemmas -/

theorem mem_dinsert {α : Type} (k : String) (v : α) (l : List (String × α)) :
    ∀ kv ∈ dinsert k v l, kv = (k, v) ∨ kv ∈ l := by
  induction l with
  | nil => intro kv h; simp [dinsert] at h; simp [h]
  | cons hd tl ih =>
    intro kv h
    simp only [dinsert] at h
    by_cases hk : hd.1 = k
    · rw [if_pos hk] at h
      rcases List.mem_cons.mp h with h | h
      · exact Or.inl h
      · exact Or.inr (List.mem_cons_of_mem _ h)
    · rw [if_neg hk] at h
      rcases List.mem_cons.mp h with h | h
      · exact Or.inr (by simp [h])
      · rcases ih kv h with h2 | h2
        · exact Or.inl h2
        · exact Or.inr (List.mem_cons_of_mem _ h2)

theorem alookup_dinsert_self {α : Type} (k : String) (v : α) (l : List (String × α)) :
    alookup (dinsert k v l) k = some v := by
  induction l with
  | nil => simp [dinsert, alookup]
  | cons hd tl ih =>
    simp only [dinsert]
    by_cases hk : hd.1 = k
    · rw [if_pos hk]; simp [alookup]
    · rw [if_neg hk]; simp only [alookup, if_neg hk]; exact ih

theorem alookup_dinsert_ne {α : Type} (k k' : String) (v : α) (l : List (String × α))
    (h : k' ≠ k) : alookup (dinsert k v l) k' = alookup l k' := by
  have hk2 : k ≠ k' := Ne.symm h
  induction l with
  | nil => simp only [dinsert, alookup, if_neg hk2]
  | cons hd tl ih =>
    simp only [dinsert]
    by_cases hk : hd.1 = k
    · rw [if_pos hk]
      simp only [alookup, if_neg hk2]
      rw [if_neg]; rw [hk]; exact hk2
    · rw [if_neg hk]
      simp only [alookup]
      by_cases hk' : hd.1 = k'
      · rw [if_pos hk', if_pos hk']
      · rw [if_neg hk', if_neg hk']; exact ih

theorem alookup_isSome_dinsert {α : Type} (k k' : String) (v : α) (l : List (String × α))
    (h : (alookup l k').isSome) : (alookup (dinsert k v l) k').isSome := by
  by_cases hk : k' = k
  · subst hk; rw [alookup_dinsert_self]; rfl
  · rw [alookup_dinsert_ne _ _ _ _ hk]; exact h

theorem buildStep_securities (st : Index) (sec : Security) :
    (buildStep st sec).securities = st.securities := by
  simp only [buildStep]
  split <;> split <;> split <;> rfl

theorem buildStep_by_code (st : Index) (sec : Security) :
    (buildStep st sec).by_code =
      if sec.scrip_code ≠ "" then dinsert sec.scrip_code sec st.by_code else st.by_code := by
  simp only [buildStep]
  split <;> split <;> split <;> rfl

theorem buildStep_by_symbol (st : Index) (sec : Security) :
    (buildStep st sec).by_symbol =
      if sec.scrip_id ≠ "" then dinsert (pyUpper sec.scrip_id) sec st.by_symbol
      else st.by_symbol := by
  simp only [buildStep]
  split <;> split <;> split <;> rfl

theorem foldl_buildStep_securities (secs : List Security) (st : Index) :
    (secs.foldl buildStep st).securities = st.securities := by
  induction secs generalizing st with
  | nil => rfl
  | cons hd tl ih => simpa [List.foldl_cons, buildStep_securities] using ih (buildStep st hd)

theorem buildIndex_securities (secs : List Security) :
    (buildIndex secs).securities = secs := by
  simp [buildIndex, foldl_buildStep_securities]

theorem by_code_inv_aux (all : List Security) (secs : List Security) (st : Index)
    (h0 : ∀ kv ∈ st.by_code, kv.2.scrip_code = kv.1 ∧ kv.2 ∈ all)
    (hs : ∀ s ∈ secs, s ∈ all) :
    ∀ kv ∈ (secs.foldl buildStep st).by_code, kv.2.scrip_code = kv.1 ∧ kv.2 ∈ all := by
  induction secs generalizing st with
  | nil => exact h0
  | cons hd tl ih =>
    refine ih (buildStep st hd) ?_ (fun s h => hs s (List.mem_cons_of_mem _ h))
    intro kv hkv
    rw [buildStep_by_code] at hkv
    by_cases hc : hd.scrip_code ≠ ""
    · rw [if_pos hc] at hkv
      rcases mem_dinsert _ _ _ kv hkv with h | h
      · subst h; exact ⟨rfl, hs hd (List.mem_cons_self hd tl)⟩
      · exact h0 kv h
    · rw [if_neg hc] at hkv; exact h0 kv hkv

theorem by_code_inv (secs : List Security) :
    ∀ kv ∈ (buildIndex secs).by_code, kv.2.scrip_code = kv.1 ∧ kv.2 ∈ secs := by
  exact by_code_inv_aux secs secs _ (by intro kv h; simp at h) (fun s h => h)

theorem by_symbol_inv_aux (all : List Security) (secs : List Security) (st : Index)
    (h0 : ∀ kv ∈ st.by_symbol, kv.1 = pyUpper kv.2.scrip_id ∧ kv.2 ∈ all)
    (hs : ∀ s ∈ secs, s ∈ all) :
    ∀ kv ∈ (secs.foldl buildStep st).by_symbol, kv.1 = pyUpper kv.2.scrip_id ∧ kv.2 ∈ all := by
  induction secs generalizing st with
  | nil => exact h0
  | cons hd tl ih =>
    refine ih (buildStep st hd) ?_ (fun s h => hs s (List.mem_cons_of_mem _ h))
    intro kv hkv
    rw [buildStep_by_symbol] at hkv
    by_cases hc : hd.scrip_id ≠ ""
    · rw [if_pos hc] at hkv
      rcases mem_dinsert _ _ _ kv hkv with h | h
      · subst h; exact ⟨rfl, hs hd (List.mem_cons_self hd tl)⟩
      · exact h0 kv h
    · rw [if_neg hc] at hkv; exact h0 kv hkv

theorem by_symbol_inv (secs : List Security) :
    ∀ kv ∈ (buildIndex secs).by_symbol, kv.1 = pyUpper kv.2.scrip_id ∧ kv.2 ∈ secs := by
  exact by_symbol_inv_aux secs secs _ (by intro kv h; simp at h) (fun s h => h)

theorem code_key_preserved (secs : List Security) (st : Index) (k : String)
    (h : (alookup st.by_code k).isSome) :
    (alookup (secs.foldl buildStep st).by_code k).isSome := by
  induction secs generalizing st with
  | nil => exact h
  | cons hd tl ih =>
    refine ih (buildStep st hd) ?_
    rw [buildStep_by_code]
    by_cases hc : hd.scrip_code ≠ ""
    · rw [if_pos hc]; exact alookup_isSome_dinsert _ _ _ _ h
    · rw [if_neg hc]; exact h

theorem code_key_exists (secs : List Security) (s : Security) (hs : s ∈ secs)
    (hc : s.scrip_code ≠ "") : (alookup (buildIndex secs).by_code s.scrip_code).isSome := by
  obtain ⟨l1, l2, rfl⟩ := List.append_of_mem hs
  unfold buildIndex
  rw [List.foldl_append, List.foldl_cons]
  refine code_key_preserved l2 _ _ ?_
  rw [buildStep_by_code, if_pos hc, alookup_dinsert_self]
  rfl

theorem mem_insSorted {α : Type} (le : α → α → Bool) (x : α) (l : List α) (z : α) :
    z ∈ insSorted le x l ↔ z = x ∨ z ∈ l := by
  induction l with
  | nil => simp [insSorted]
  | cons y ys ih =>
    simp only [insSorted]
    by_cases h : le y x
    · rw [if_pos h]
      simp only [List.mem_cons, ih]
      try tauto
    · rw [if_neg h]
      simp only [List.mem_cons]
      try tauto

theorem mem_stableSort {α : Type} (le : α → α → Bool) (l : List α) (z : α) :
    z ∈ stableSort le l ↔ z ∈ l := by
  induction l with
  | nil => simp [stableSort]
  | cons y ys ih =>
    show z ∈ insSorted le y (stableSort le ys) ↔ _
    rw [mem_insSorted]
    simp only [List.mem_cons, ih]

theorem sorted_insSorted {α : Type} (le : α → α → Bool)
    (htrans : ∀ a b c, le a b = true → le b c = true → le a c = true)
    (htotal : ∀ a b, (le a b || le b a) = true)
    (x : α) (l : List α) (h : List.Pairwise (fun a b => le a b = true) l) :
    List.Pairwise (fun a b => le a b = true) (insSorted le x l) := by
  induction l with
  | nil => simp [insSorted]
  | cons y ys ih =>
    simp only [insSorted]
    rcases List.pairwise_cons.mp h with ⟨hy, hys⟩
    by_cases hle : le y x = true
    · rw [if_pos hle]
      refine List.pairwise_cons.mpr ⟨?_, ih hys⟩
      intro z hz
      rcases (mem_insSorted le x ys z).mp hz with rfl | hz2
      · exact hle
      · exact hy z hz2
    · rw [if_neg hle]
      have hxy : le x y = true := by
        have hf : le y x = false := by
          cases hb : le y x
          · rfl
          · exact absurd hb hle
        have h1 := htotal y x
        rw [hf, Bool.false_or] at h1
        exact h1
      refine List.pairwise_cons.mpr ⟨?_, h⟩
      intro z hz
      rcases List.mem_cons.mp hz with rfl | hz2
      · exact hxy
      · exact htrans x y z hxy (hy z hz2)

theorem sorted_stableSort {α : Type} (le : α → α → Bool)
    (htrans : ∀ a b c, le a b = true → le b c = true → le a c = true)
    (htotal : ∀ a b, (le a b || le b a) = true)
    (l : List α) : List.Pairwise (fun a b => le a b = true) (stableSort le l) := by
  induction l with
  | nil => simp [stableSort]
  | cons y ys ih => exact sorted_insSorted le htrans htotal y _ ih

theorem alookup_mem {α : Type} (l : List (String × α)) (k : String) (v : α)
    (h : alookup l k = some v) : (k, v) ∈ l := by
  induction l with
  | nil => simp [alookup] at h
  | cons hd tl ih =>
    simp only [alookup] at h
    by_cases hk : hd.1 = k
    · rw [if_pos hk] at h
      have hv : hd.2 = v := by injection h
      have : hd = (k, v) := by
        cases hd; simp at hk hv; simp [hk, hv]
      rw [← this]; exact List.mem_cons_self _ _
    · rw [if_neg hk] at h
      exact List.mem_cons_of_mem _ (ih h)

theorem pyIsDigit_ne_empty (s : String) (h : pyIsDigit s = true) : s ≠ "" := by
  intro he; rw [he] at h; simp [pyIsDigit] at h

theorem resolveLoaded_digit (idx : Index) (fuzzy : Index → String → Nat → ℚ → List Match)
    (top_n : Nat) (cutoff : ℚ) (q : String) (h : pyIsDigit (pyStrip q) = true) :
    resolveLoaded idx fuzzy top_n cutoff q =
      match alookup idx.by_code (pyStrip q) with
      | some sec => [formatResult sec 100]
      | none => [] := by
  have hne : pyStrip q ≠ "" := pyIsDigit_ne_empty _ h
  simp only [resolveLoaded]
  rw [if_neg hne, if_pos h]

/-- C5: for a purely numeric query over the loaded set, `resolve` returns
exactly one match carrying that code with score 100 when a security with
that code exists, and the empty list (no fallthrough to later tiers) when
no such code exists. -/
theorem resolve_numeric_tier (secs : List Security)
    (fuzzy : Index → String → Nat → ℚ → List Match) (top_n : Nat) (cutoff : ℚ) (q : String)
    (hq : pyIsDigit (pyStrip q) = true) :
    ((∃ s ∈ secs, s.scrip_code = pyStrip q) →
      ∃ v ∈ secs, v.scrip_code = pyStrip q ∧
        resolveLoaded (buildIndex secs) fuzzy top_n cutoff q = [formatResult v 100] ∧
        (formatResult v 100).scrip_code = pyStrip q ∧ (formatResult v 100).score = 100)
    ∧ ((∀ s ∈ secs, s.scrip_code ≠ pyStrip q) →
      resolveLoaded (buildIndex secs) fuzzy top_n cutoff q = []) := by
  constructor
  · rintro ⟨s, hs, hcode⟩
    have hcne : s.scrip_code ≠ "" := by rw [hcode]; exact pyIsDigit_ne_empty _ hq
    have hsome := code_key_exists secs s hs hcne
    rw [hcode] at hsome
    obtain ⟨v, hv⟩ := Option.isSome_iff_exists.mp hsome
    have hmem := alookup_mem _ _ _ hv
    obtain ⟨hvcode, hvmem⟩ := by_code_inv secs _ hmem
    refine ⟨v, hvmem, hvcode, ?_, hvcode, rfl⟩
    rw [resolveLoaded_digit _ _ _ _ _ hq, hv]
  · intro hall
    rw [resolveLoaded_digit _ _ _ _ _ hq]
    cases hl : alookup (buildIndex secs).by_code (pyStrip q) with
    | none => rfl
    | some v =>
      exfalso
      obtain ⟨hvcode, hvmem⟩ := by_code_inv secs _ (alookup_mem _ _ _ hl)
      exact hall v hvmem hvcode

theorem resolve_numeric_tier_witness :
    resolveLoaded (buildIndex [relSec]) fuzzyNil 5 60 "500325" = [formatResult relSec 100] := by
  obtain ⟨v, hv, hcode, hres, hfc, hsc⟩ :=
    (resolve_numeric_tier [relSec] fuzzyNil 5 60 "500325" (by decide)).1
      ⟨relSec, by simp, by decide⟩
  have he : v = relSec := by simpa using hv
  rw [he] at hres
  exact hres

theorem lexLe_trans (a : List Char) : ∀ b c : List Char,
    lexLe a b = true → lexLe b c = true → lexLe a c = true := by
  induction a with
  | nil => intro b c _ _; rfl
  | cons x xs ih =>
    intro b c h1 h2
    cases b with
    | nil => simp [lexLe] at h1
    | cons y ys =>
      cases c with
      | nil => simp [lexLe] at h2
      | cons z zs =>
        simp only [lexLe] at h1 h2 ⊢
        by_cases hxy : x = y
        · subst hxy
          rw [if_pos rfl] at h1
          by_cases hyz : x = z
          · subst hyz
            rw [if_pos rfl] at h2 ⊢
            exact ih ys zs h1 h2
          · rw [if_neg hyz] at h2 ⊢
            exact h2
        · rw [if_neg hxy] at h1
          have hx_lt_y : x < y := of_decide_eq_true h1
          by_cases hyz : y = z
          · subst hyz
            rw [if_neg hxy]
            exact h1
          · rw [if_neg hyz] at h2
            have hy_lt_z : y < z := of_decide_eq_true h2
            have hx_lt_z : x < z := lt_trans hx_lt_y hy_lt_z
            rw [if_neg (ne_of_lt hx_lt_z)]
            exact decide_eq_true hx_lt_z

theorem lexLe_total (a : List Char) : ∀ b : List Char, (lexLe a b || lexLe b a) = true := by
  induction a with
  | nil => intro b; simp [lexLe]
  | cons x xs ih =>
    intro b
    cases b with
    | nil => simp [lexLe]
    | cons y ys =>
      by_cases hxy : x = y
      · subst hxy
        simp only [lexLe, if_pos rfl]
        exact ih ys
      · have hyx : ¬ y = x := fun e => hxy e.symm
        simp only [lexLe, if_neg hxy, if_neg hyx]
        rcases lt_trichotomy x y with h | h | h
        · rw [decide_eq_true h, Bool.true_or]
        · exact absurd h hxy
        · rw [decide_eq_true h, Bool.or_true]

theorem pyStrLe_trans (a b c : String) (h1 : pyStrLe a b = true) (h2 : pyStrLe b c = true) :
    pyStrLe a c = true := lexLe_trans a.data b.data c.data h1 h2

theorem pyStrLe_total (a b : String) : (pyStrLe a b || pyStrLe b a) = true :=
  lexLe_total a.data b.data

theorem pmLe_trans (a b c : Match) (h1 : pmLe a b = true) (h2 : pmLe b c = true) :
    pmLe a c = true := by
  simp only [pmLe, decide_eq_true_eq] at h1 h2 ⊢
  rcases h1 with h1 | ⟨e1, h1⟩
  · rcases h2 with h2 | ⟨e2, h2⟩
    · exact Or.inl (lt_trans h1 h2)
    · exact Or.inl (e2 ▸ h1)
  · rcases h2 with h2 | ⟨e2, h2⟩
    · exact Or.inl (e1 ▸ h2)
    · refine Or.inr ⟨e1.trans e2, ?_⟩
      rcases h1 with h1 | ⟨f1, h1⟩
      · rcases h2 with h2 | ⟨f2, h2⟩
        · exact Or.inl (lt_trans h1 h2)
        · exact Or.inl (f2 ▸ h1)
      · rcases h2 with h2 | ⟨f2, h2⟩
        · exact Or.inl (f1 ▸ h2)
        · exact Or.inr ⟨f1.trans f2, pyStrLe_trans _ _ _ h1 h2⟩

theorem pmLe_total (a b : Match) : (pmLe a b || pmLe b a) = true := by
  simp only [pmLe, Bool.or_eq_true, decide_eq_true_eq]
  rcases lt_trichotomy (groupOrder a.group) (groupOrder b.group) with h | h | h
  · exact Or.inl (Or.inl h)
  · rcases lt_trichotomy a.scrip_id.length b.scrip_id.length with h2 | h2 | h2
    · exact Or.inl (Or.inr ⟨h, Or.inl h2⟩)
    · cases h3 : pyStrLe a.name b.name with
      | true => exact Or.inl (Or.inr ⟨h, Or.inr ⟨h2, rfl⟩⟩)
      | false =>
        have ht := pyStrLe_total a.name b.name
        rw [h3, Bool.false_or] at ht
        exact Or.inr (Or.inr ⟨h.symm, Or.inr ⟨h2.symm, ht⟩⟩)
    · exact Or.inr (Or.inr ⟨h.symm, Or.inl h2⟩)
  · exact Or.inr (Or.inl h)

/-- C6: when `resolve` answers from the symbol-prefix tier, every match's
symbol starts with the query case-insensitively, every match scores 95,
the list is sorted by group priority, then symbol length, then name, and
is truncated to at most `top_n` entries. -/
theorem resolve_sym_start_tier (secs : List Security)
    (fuzzy : Index → String → Nat → ℚ → List Match) (top_n : Nat) (cutoff : ℚ) (q : String)
    (h0 : pyStrip q ≠ "") (h1 : pyIsDigit (pyStrip q) = false)
    (h2 : isinLike (pyStrip q) = false)
    (h3 : alookup (buildIndex secs).by_symbol (pyUpper (pyStrip q)) = none)
    (h4 : ((buildIndex secs).by_symbol.filter
        (fun kv => pyStartsWith kv.1 (pyUpper (pyStrip q)))).map (fun kv => formatResult kv.2 95) ≠ []) :
    (∀ m ∈ resolveLoaded (buildIndex secs) fuzzy top_n cutoff q,
        m.score = 95 ∧ pyStartsWith (pyUpper m.scrip_id) (pyUpper (pyStrip q)) = true)
    ∧ List.Pairwise (fun a b => pmLe a b = true)
        (resolveLoaded (buildIndex secs) fuzzy top_n cutoff q)
    ∧ (resolveLoaded (buildIndex secs) fuzzy top_n cutoff q).length ≤ top_n := by
  have hr : resolveLoaded (buildIndex secs) fuzzy top_n cutoff q =
      (((((buildIndex secs).by_symbol.filter (fun kv => pyStartsWith kv.1 (pyUpper (pyStrip q)))).map
        (fun kv => formatResult kv.2 95)) |> stableSort pmLe).take top_n) := by
    simp only [resolveLoaded]
    rw [if_neg h0, if_neg (by simp [h1]), if_neg (by simp [h2]), h3]
    simp only [if_neg h4]
  rw [hr]
  refine ⟨?_, ?_, ?_⟩
  · intro m hm
    have hm2 := (mem_stableSort pmLe _ m).mp (List.mem_of_mem_take hm)
    obtain ⟨kv, hkv, hfmt⟩ := List.mem_map.mp hm2
    obtain ⟨hkvmem, hpred⟩ := List.mem_filter.mp hkv
    obtain ⟨hkey, _⟩ := by_symbol_inv secs kv hkvmem
    constructor
    · rw [← hfmt]; rfl
    · rw [← hfmt]
      show pyStartsWith (pyUpper kv.2.scrip_id) (pyUpper (pyStrip q)) = true
      rw [← hkey]
      exact hpred
  · exact (sorted_stableSort pmLe pmLe_trans pmLe_total _).sublist (List.take_sublist _ _)
  · rw [List.length_take]
    exact min_le_left _ _

theorem resolve_sym_start_witness :
    (resolveLoaded (buildIndex [relSec]) fuzzyNil 5 60 "rel").length ≤ 5 :=
  (resolve_sym_start_tier [relSec] fuzzyNil 5 60 "rel" (by decide) (by decide) (by decide)
    (by decide) (by decide)).2.2

theorem ensure_loaded_none_nonempty (st : SecStore) (hne : load_securities st ≠ []) :
    ensure_loaded st none = .ok (st, buildIndex (load_securities st)) := by
  unfold ensure_loaded
  by_cases hf : (match get_securities_age st with
      | some a => decide (a < SECURITIES_TTL_HOURS)
      | none => false) = true
  · rw [if_pos ⟨hf, hne⟩]
  · rw [if_neg (fun hc => hf hc.1)]
    simp only [if_pos hne]

theorem ensure_loaded_nil :
    ensure_loaded ([] : SecStore) none =
      .error "No cached securities and no BSE instance to fetch them" := rfl

/-- C7: with no provider handle, a non-empty securities cache (in
particular a stale one, e.g. older than the 24-hour threshold) still lets
`resolve` succeed from the cached data, while an empty cache makes
`resolve` raise the `RuntimeError` configuration failure. -/
theorem resolve_stale_or_empty_store (st : SecStore)
    (fuzzy : Index → String → Nat → ℚ → List Match) (top_n : Nat) (cutoff : ℚ) (q : String) :
    (st ≠ [] → (∀ a, get_securities_age st = some a → SECURITIES_TTL_HOURS ≤ a) →
      resolve st none fuzzy top_n cutoff q =
        .ok (resolveLoaded (buildIndex (load_securities st)) fuzzy top_n cutoff q))
    ∧ (st = [] → resolve st none fuzzy top_n cutoff q =
        .error "No cached securities and no BSE instance to fetch them") := by
  constructor
  · intro hne _
    have hl : load_securities st ≠ [] := by
      cases st with
      | nil => exact absurd rfl hne
      | cons r rs => simp [load_securities]
    unfold resolve
    rw [ensure_loaded_none_nonempty st hl]
    rfl
  · intro he
    subst he
    unfold resolve
    rw [ensure_loaded_nil]
    rfl

theorem resolve_stale_or_empty_store_witness :
    resolve [(relSec, (30 : ℚ))] none fuzzyNil 5 60 "rel" =
      .ok (resolveLoaded (buildIndex (load_securities [(relSec, (30 : ℚ))])) fuzzyNil 5 60 "rel") := by
  refine (resolve_stale_or_empty_store [(relSec, (30 : ℚ))] fuzzyNil 5 60 "rel").1
    (by simp) ?_
  intro a h
  simp only [get_securities_age, List.foldl_nil, Option.some.injEq] at h
  rw [← h]
  norm_num [SECURITIES_TTL_HOURS]

/-- C10: `resolve` validates the securities store before inspecting the
query, so with an empty store and no provider it raises the configuration
error even for a whitespace-only query, whereas with any non-empty store
the same query yields an empty match list. -/
theorem resolve_checks_store_before_query
    (fuzzy : Index → String → Nat → ℚ → List Match) (top_n : Nat) (cutoff : ℚ) (q : String)
    (hq : pyStrip q = "") :
    resolve ([] : SecStore) none fuzzy top_n cutoff q =
      .error "No cached securities and no BSE instance to fetch them"
    ∧ ∀ st : SecStore, st ≠ [] → resolve st none fuzzy top_n cutoff q = .ok [] := by
  constructor
  · unfold resolve
    rw [ensure_loaded_nil]
    rfl
  · intro st hne
    have hl : load_securities st ≠ [] := by
      cases st with
      | nil => exact absurd rfl hne
      | cons r rs => simp [load_securities]
    unfold resolve
    rw [ensure_loaded_none_nonempty st hl]
    show Except.ok (resolveLoaded _ fuzzy top_n cutoff q) = Except.ok []
    simp only [resolveLoaded]
    rw [if_pos hq]

theorem resolve_checks_store_before_query_witness :
    resolve ([] : SecStore) none fuzzyNil 5 60 "   " =
      .error "No cached securities and no BSE instance to fetch them" :=
  (resolve_checks_store_before_query fuzzyNil 5 60 "   " (by decide)).1

/-! ## Document re-cache (C3) -/

theorem docRowsOf_doc_id (docId : String) (cs : List PChunk) :
    ∀ c ∈ docRowsOf docId cs, c.doc_id = docId := by
  intro c hc
  obtain ⟨ic, _, hfmt⟩ := List.mem_map.mp hc
  rw [← hfmt]

theorem filter_ne_then_eq (l : List ChunkRow) (docId : String) :
    (l.filter (fun c => c.doc_id ≠ docId)).filter (fun c => c.doc_id = docId) = [] := by
  induction l with
  | nil => rfl
  | cons hd tl ih =>
    by_cases h : hd.doc_id = docId
    · simp [List.filter_cons, h, ih]
    · simp [List.filter_cons, h, ih]

theorem filter_docRows_self (docId : String) (cs : List PChunk) :
    (docRowsOf docId cs).filter (fun c => c.doc_id = docId) = docRowsOf docId cs := by
  rw [List.filter_eq_self]
  intro c hc
  simp [docRowsOf_doc_id docId cs c hc]

/-- C3: re-caching the same URL returns the same document id, and the
chunk rows stored under that id afterwards are exactly those computed from
the second call's `full_text` — no chunk from the first call's text
survives. -/
theorem cache_document_recache (st : DocStore)
    (url cc1 cn1 dt1 hl1 d1 ft1 : String) (p1 : Nat) (o1 : Bool) (n1 : String)
    (cc2 cn2 dt2 hl2 d2 ft2 : String) (p2 : Nat) (o2 : Bool) (n2 : String) :
    (cache_document st url cc1 cn1 dt1 hl1 d1 ft1 p1 o1 n1).2 =
      (cache_document (cache_document st url cc1 cn1 dt1 hl1 d1 ft1 p1 o1 n1).1
        url cc2 cn2 dt2 hl2 d2 ft2 p2 o2 n2).2
    ∧ ((cache_document (cache_document st url cc1 cn1 dt1 hl1 d1 ft1 p1 o1 n1).1
          url cc2 cn2 dt2 hl2 d2 ft2 p2 o2 n2).1.chunks.filter
        (fun c => c.doc_id = doc_id_from_url url))
      = docRowsOf (doc_id_from_url url) (create_smart_chunks ft2 dt2) := by
  constructor
  · rfl
  · show ((((cache_document st url cc1 cn1 dt1 hl1 d1 ft1 p1 o1 n1).1.chunks.filter
        (fun c => c.doc_id ≠ doc_id_from_url url)) ++
        docRowsOf (doc_id_from_url url) (create_smart_chunks ft2 dt2)).filter
        (fun c => c.doc_id = doc_id_from_url url))
      = docRowsOf (doc_id_from_url url) (create_smart_chunks ft2 dt2)
    rw [List.filter_append, filter_ne_then_eq, filter_docRows_self]
    rfl

theorem greedyPick_halt (mc mx : Nat) (rows : List (ChunkRow × DocRow))
    (res : List RetChunk) (tot : Nat) (h : mc ≤ res.length ∨ mx ≤ tot) :
    greedyPick mc mx rows res tot = res := by
  cases rows with
  | nil => rfl
  | cons r rs => simp only [greedyPick, if_pos h]

theorem greedyPick_append (mc mx : Nat) (rows more : List (ChunkRow × DocRow)) :
    ∀ (res : List RetChunk) (tot : Nat),
      greedyPick mc mx (rows ++ more) res tot =
        greedyPick mc mx more (selectRows mc mx rows res tot).1 (selectRows mc mx rows res tot).2 := by
  induction rows with
  | nil => intro res tot; rfl
  | cons r rs ih =>
    intro res tot
    by_cases hc : mc ≤ res.length ∨ mx ≤ tot
    · rw [List.cons_append]
      simp only [greedyPick, selectRows, if_pos hc]
      exact (greedyPick_halt mc mx more res tot hc).symm
    · rw [List.cons_append]
      simp only [greedyPick, selectRows, if_neg hc]
      by_cases hfit : tot + r.1.content.length ≤ mx
      · rw [if_pos hfit, if_pos hfit]; exact ih _ _
      · rw [if_neg hfit, if_neg hfit]; exact ih _ _

theorem selectTypes_eq_greedy (st : DocStore) (code : String) (mc mx : Nat)
    (tys : List String) : ∀ (res : List RetChunk) (tot : Nat),
    selectTypes st code mc mx tys res tot =
      greedyPick mc mx ((tys.map (rowsFor st code)).flatten) res tot := by
  induction tys with
  | nil => intro res tot; rfl
  | cons ty tys ih =>
    intro res tot
    simp only [List.map_cons, List.flatten_cons]
    by_cases hc : mc ≤ res.length ∨ mx ≤ tot
    · simp only [selectTypes, if_pos hc]
      exact (greedyPick_halt mc mx _ res tot hc).symm
    · simp only [selectTypes, if_neg hc]
      rw [greedyPick_append, ih]

/-- C2 (amended): chunk selection equals the greedy pass in which reaching
`max_chunks` entries or a running total at `max_chars` stops everything,
while a chunk that would merely overflow the remaining character budget is
skipped and iteration continues with later chunks. -/
theorem get_relevant_chunks_is_greedy (st : DocStore) (company_code query : String)
    (chunk_types : Option (List String)) (maxChunks maxChars : Nat) :
    get_relevant_chunks st company_code query chunk_types maxChunks maxChars =
      specGreedyRetrieve st company_code query chunk_types maxChunks maxChars := by
  simp only [get_relevant_chunks, specGreedyRetrieve]
  by_cases hdocs : get_company_documents st company_code none = []
  · rw [if_pos hdocs, if_pos hdocs]
  · rw [if_neg hdocs, if_neg hdocs, selectTypes_eq_greedy]

/-- C2 counterexample: with a character budget of 10, the first candidate
chunk (11 characters, most recent document) is not appended because it
would exceed the budget, yet the later 5-character chunk is still
appended, so one limit-skip does not halt all further additions. -/
theorem get_relevant_chunks_skip_cex :
    get_relevant_chunks cexStore "C" "x" (some ["guidance"]) 10 10 =
      [{ chunk_type := "guidance", document_type := "transcript", document_date := "2024-01-01",
         headline := "h2", company := "TestCo", content := "BBBBB" }]
    ∧ 10 < ("AAAAAAAAAAA" : String).length := by
  constructor
  · decide
  · decide

theorem greedyPick_bounds (mc mx : Nat) (rows : List (ChunkRow × DocRow)) :
    ∀ (res : List RetChunk) (tot : Nat), tot = sumC res → res.length ≤ mc → tot ≤ mx →
      (greedyPick mc mx rows res tot).length ≤ mc ∧ sumC (greedyPick mc mx rows res tot) ≤ mx := by
  induction rows with
  | nil => intro res tot h1 h2 h3; exact ⟨h2, h1 ▸ h3⟩
  | cons r rs ih =>
    intro res tot h1 h2 h3
    by_cases hc : mc ≤ res.length ∨ mx ≤ tot
    · simp only [greedyPick, if_pos hc]; exact ⟨h2, h1 ▸ h3⟩
    · simp only [greedyPick, if_neg hc]
      push_neg at hc
      by_cases hfit : tot + r.1.content.length ≤ mx
      · rw [if_pos hfit]
        refine ih _ _ ?_ ?_ hfit
        · rw [h1]; simp [sumC, fmtRow]
        · simp only [List.length_append, List.length_cons, List.length_nil]; omega
      · rw [if_neg hfit]; exact ih res tot h1 h2 h3

/-- C8: for every store, company, query, chunk-type list and budgets,
`get_relevant_chunks` returns at most `max_chunks` entries and the total
length of the returned contents never exceeds `max_chars`. -/
theorem get_relevant_chunks_bounded (st : DocStore) (company_code query : String)
    (chunk_types : Option (List String)) (maxChunks maxChars : Nat) :
    (get_relevant_chunks st company_code query chunk_types maxChunks maxChars).length ≤ maxChunks
    ∧ sumC (get_relevant_chunks st company_code query chunk_types maxChunks maxChars) ≤ maxChars := by
  simp only [get_relevant_chunks]
  by_cases hdocs : get_company_documents st company_code none = []
  · rw [if_pos hdocs]
    exact ⟨Nat.zero_le _, Nat.zero_le _⟩
  · rw [if_neg hdocs, selectTypes_eq_greedy]
    exact greedyPick_bounds maxChunks maxChars _ [] 0 rfl (Nat.zero_le _) (Nat.zero_le _)

theorem detectGo_eq_specAssignGo (tbl : List (String × List Re)) (pl : String) :
    detectGo tbl pl = specAssignGo tbl pl := by
  induction tbl with
  | nil => rfl
  | cons e rest ih =>
    obtain ⟨ty, ps⟩ := e
    simp only [detectGo, specAssignGo]
    have hiff : (1 ≤ ps.countP (fun p => reSearch p pl.data)) ↔
        (ps.any (fun p => reSearch p pl.data) = true) := by
      rw [List.any_eq_true]
      exact ⟨fun h1 => List.countP_pos_iff.mp h1, fun he => List.countP_pos_iff.mpr he⟩
    by_cases h : ps.any (fun p => reSearch p pl.data) = true
    · rw [if_pos (hiff.mpr h), if_pos h]
    · rw [if_neg (fun hc => h (hiff.mp hc)), if_neg h]
      exact ih

theorem chunkStep_eq_specMergeStep (st : ChunkState) (page : String)
    (h : pyStrip page ≠ "") :
    chunkStep st page = specMergeStep st (page, specAssignType page) := by
  obtain ⟨chunks, cur, curType, size⟩ := st
  simp only [chunkStep, specMergeStep, if_neg h]
  rw [show detectType (pyLower page) = specAssignType page from
    detectGo_eq_specAssignGo patternTable (pyLower page)]

theorem foldl_chunkStep_eq_spec (pages : List String) : ∀ st : ChunkState,
    pages.foldl chunkStep st =
      ((pages.filter (fun p => pyStrip p ≠ "")).map (fun p => (p, specAssignType p))).foldl
        specMergeStep st := by
  induction pages with
  | nil => intro st; rfl
  | cons p ps ih =>
    intro st
    by_cases hb : pyStrip p = ""
    · have hstep : chunkStep st p = st := by
        obtain ⟨chunks, cur, curType, size⟩ := st
        simp only [chunkStep, if_pos hb]
      rw [List.foldl_cons, hstep, List.filter_cons]
      have : (decide (pyStrip p ≠ "")) = false := by simp [hb]
      rw [this]
      exact ih st
    · rw [List.foldl_cons, List.filter_cons]
      have : (decide (pyStrip p ≠ "")) = true := by simp [hb]
      rw [this]
      simp only [List.map_cons, List.foldl_cons]
      rw [chunkStep_eq_specMergeStep st p hb]
      exact ih _

/-- C4: `create_smart_chunks` implements the spec's chunking exactly: each
non-empty page is assigned the first matching chunk type in the fixed cue
order (else "general"), and consecutive pages merge into one chunk unless
the assigned type changes or the 4000-character size would be exceeded. -/
theorem create_smart_chunks_is_spec (text : String) (doc_type : String) :
    create_smart_chunks text doc_type = specSmartChunks text := by
  simp only [create_smart_chunks, specSmartChunks]
  rw [foldl_chunkStep_eq_spec]

/-! ## Chunk-size analysis (C9)

A single page longer than the maximum chunk size becomes one oversized
chunk; the lemmas below evaluate the chunker symbolically on a
4001-character page without page markers or cue matches.
-/

theorem detectGo_skip (ty : String) (ps : List Re) (rest : List (String × List Re))
    (pl : String) (h : ∀ p ∈ ps, reSearch p pl.data = false) :
    detectGo ((ty, ps) :: rest) pl = detectGo rest pl := by
  have hc : ps.countP (fun p => reSearch p pl.data) = 0 :=
    List.countP_eq_zero.mpr (fun a ha => by simp [h a ha])
  simp only [detectGo]
  rw [if_neg (by rw [hc]; omega)]

theorem empt_not_nullable : ∀ r : Re, r.empt = true → r.nullable = false := by
  intro r
  induction r with
  | zero => intro _; rfl
  | eps => intro h; simp [Re.empt] at h
  | chr x => intro h; simp [Re.empt] at h
  | nchr x => intro h; simp [Re.empt] at h
  | digit => intro h; simp [Re.empt] at h
  | seq a b iha ihb =>
    intro h
    simp only [Re.empt] at h
    simp only [Re.nullable]
    cases ha : a.empt with
    | true => rw [iha ha, Bool.false_and]
    | false =>
      rw [ha, Bool.false_or] at h
      rw [ihb h, Bool.and_false]
  | alt a b iha ihb =>
    intro h
    simp only [Re.empt] at h
    cases ha : a.empt with
    | false => rw [ha, Bool.false_and] at h; exact absurd h (by simp)
    | true =>
      cases hb : b.empt with
      | false => rw [ha, hb, Bool.and_false] at h; exact absurd h (by simp)
      | true =>
        simp only [Re.nullable]
        rw [iha ha, ihb hb, Bool.or_self]
  | star a iha => intro h; simp [Re.empt] at h

theorem empt_deriv : ∀ (r : Re) (c : Char), r.empt = true → (r.deriv c).empt = true := by
  intro r c
  induction r with
  | zero => intro _; rfl
  | eps => intro h; simp [Re.empt] at h
  | chr x => intro h; simp [Re.empt] at h
  | nchr x => intro h; simp [Re.empt] at h
  | digit => intro h; simp [Re.empt] at h
  | seq a b iha ihb =>
    intro h
    simp only [Re.empt] at h
    simp only [Re.deriv]
    cases ha : a.empt with
    | true =>
      rw [if_neg (by rw [empt_not_nullable a ha]; exact Bool.false_ne_true)]
      simp only [Re.empt, iha ha, Bool.true_or]
    | false =>
      rw [ha, Bool.false_or] at h
      by_cases hn : a.nullable = true
      · rw [if_pos hn]
        simp only [Re.empt, ihb h, h, Bool.or_true, Bool.and_true]
      · rw [if_neg hn]
        simp only [Re.empt, h, Bool.or_true]
  | alt a b iha ihb =>
    intro h
    simp only [Re.empt] at h
    cases ha : a.empt with
    | false => rw [ha, Bool.false_and] at h; exact absurd h (by simp)
    | true =>
      cases hb : b.empt with
      | false => rw [ha, hb, Bool.and_false] at h; exact absurd h (by simp)
      | true =>
        simp only [Re.deriv, Re.empt]
        rw [iha ha, ihb hb, Bool.and_self]
  | star a iha => intro h; simp [Re.empt] at h

theorem matchPre_empt : ∀ (l : List Char) (r : Re), r.empt = true → matchPre r l = false := by
  intro l
  induction l with
  | nil => intro r h; simpa [matchPre] using empt_not_nullable r h
  | cons c cs ih =>
    intro r h
    simp only [matchPre]
    rw [empt_not_nullable r h, Bool.false_or]
    exact ih _ (empt_deriv r c h)

theorem reSearch_allc (r : Re) (c : Char) (hn : r.nullable = false)
    (hd : (r.deriv c).empt = true) :
    ∀ l, (∀ x ∈ l, x = c) → reSearch r l = false := by
  intro l
  induction l with
  | nil => intro _; simpa [reSearch] using hn
  | cons x xs ih =>
    intro hall
    have hx : x = c := hall x (List.mem_cons_self _ _)
    have h1 : matchPre r (x :: xs) = false := by
      simp only [matchPre]
      rw [hn, Bool.false_or, hx]
      exact matchPre_empt xs _ hd
    have h2 : reSearch r xs = false := ih (fun y hy => hall y (List.mem_cons_of_mem _ hy))
    simp only [reSearch, h1, h2, Bool.or_self]

theorem longestAux_empt : ∀ (l : List Char) (r : Re) (pos : Nat) (best : Option Nat),
    r.empt = true → longestAux r l pos best = best := by
  intro l
  induction l with
  | nil =>
    intro r pos best h
    simp only [longestAux]
    rw [empt_not_nullable r h]
    simp
  | cons c cs ih =>
    intro r pos best h
    simp only [longestAux]
    rw [empt_not_nullable r h]
    simp only [Bool.false_eq_true, if_false]
    exact ih _ _ _ (empt_deriv r c h)

theorem longestPre_none (r : Re) (c : Char) (cs : List Char) (hn : r.nullable = false)
    (hd : (r.deriv c).empt = true) : longestPre r (c :: cs) = none := by
  simp only [longestPre, longestAux]
  rw [hn]
  simp only [Bool.false_eq_true, if_false]
  exact longestAux_empt cs _ _ _ hd

theorem reSplitF_allc (r : Re) (c : Char) (hn : r.nullable = false)
    (hd : (r.deriv c).empt = true) :
    ∀ (fuel : Nat) (l acc : List Char), (∀ x ∈ l, x = c) →
      reSplitF r fuel acc l = [acc.reverse ++ l] := by
  intro fuel
  induction fuel with
  | zero =>
    intro l acc hall
    cases l with
    | nil => simp [reSplitF]
    | cons x xs => rfl
  | succ fuel ih =>
    intro l acc hall
    cases l with
    | nil => simp [reSplitF]
    | cons x xs =>
      have hx : x = c := hall x (List.mem_cons_self _ _)
      subst hx
      simp only [reSplitF]
      rw [longestPre_none r x xs hn hd]
      rw [ih xs (x :: acc) (fun y hy => hall y (List.mem_cons_of_mem _ hy))]
      simp [List.reverse_cons, List.append_assoc]

theorem detectType_z : detectType (String.mk zChars) = "general" := by
  have hz : ∀ x ∈ (String.mk zChars).data, x = 'z' := by
    intro x hx
    exact List.eq_of_mem_replicate hx
  have h1 : reSearch guidanceRe1 (String.mk zChars).data = false :=
    reSearch_allc _ 'z' (by decide) (by decide) _ hz
  have h2 : reSearch guidanceRe2 (String.mk zChars).data = false :=
    reSearch_allc _ 'z' (by decide) (by decide) _ hz
  have h3 : reSearch financialsRe1 (String.mk zChars).data = false :=
    reSearch_allc _ 'z' (by decide) (by decide) _ hz
  have h4 : reSearch financialsRe2 (String.mk zChars).data = false :=
    reSearch_allc _ 'z' (by decide) (by decide) _ hz
  have h5 : reSearch qaRe1 (String.mk zChars).data = false :=
    reSearch_allc _ 'z' (by decide) (by decide) _ hz
  have h6 : reSearch qaRe2 (String.mk zChars).data = false :=
    reSearch_allc _ 'z' (by decide) (by decide) _ hz
  have h7 : reSearch segmentRe1 (String.mk zChars).data = false :=
    reSearch_allc _ 'z' (by decide) (by decide) _ hz
  have h8 : reSearch segmentRe2 (String.mk zChars).data = false :=
    reSearch_allc _ 'z' (by decide) (by decide) _ hz
  have h9 : reSearch summaryRe1 (String.mk zChars).data = false :=
    reSearch_allc _ 'z' (by decide) (by decide) _ hz
  have pair : ∀ (a b : Re), reSearch a (String.mk zChars).data = false →
      reSearch b (String.mk zChars).data = false →
      ∀ p ∈ [a, b], reSearch p (String.mk zChars).data = false := by
    intro a b hfa hfb p hp
    rcases List.mem_cons.mp hp with rfl | hp2
    · exact hfa
    · rcases List.mem_cons.mp hp2 with rfl | hp3
      · exact hfb
      · simp at hp3
  have single : ∀ (a : Re), reSearch a (String.mk zChars).data = false →
      ∀ p ∈ [a], reSearch p (String.mk zChars).data = false := by
    intro a hfa p hp
    rcases List.mem_cons.mp hp with rfl | hp2
    · exact hfa
    · simp at hp2
  show detectGo patternTable (String.mk zChars) = "general"
  simp only [patternTable]
  rw [detectGo_skip _ _ _ _ (pair _ _ h1 h2), detectGo_skip _ _ _ _ (pair _ _ h3 h4),
    detectGo_skip _ _ _ _ (pair _ _ h5 h6), detectGo_skip _ _ _ _ (pair _ _ h7 h8),
    detectGo_skip _ _ _ _ (single _ h9)]
  rfl

theorem stripL_replicate (n : Nat) (c : Char) (h : pySpace c = false) :
    stripL (List.replicate n c) = List.replicate n c := by
  cases n with
  | zero => rfl
  | succ m =>
    simp only [stripL]
    rw [List.replicate_succ, List.dropWhile_cons, h]
    simp only [Bool.false_eq_true, if_false]
    rw [← List.replicate_succ, List.reverse_replicate]
    rw [List.replicate_succ, List.dropWhile_cons, h]
    simp only [Bool.false_eq_true, if_false]
    rw [← List.replicate_succ, List.reverse_replicate]

theorem zText_length : zText.length = 4001 := by
  show (List.replicate 4001 'z').length = 4001
  rw [List.length_replicate]

theorem create_smart_chunks_z (dt : String) :
    create_smart_chunks zText dt = [⟨"general", zText⟩] := by
  have hz : ∀ x ∈ zChars, x = 'z' := fun x hx => List.eq_of_mem_replicate hx
  have hpages : pagesOf zText = [zText] := by
    simp only [pagesOf, reSplit]
    rw [show zText.data = zChars from rfl,
      reSplitF_allc pageMarker 'z' (by decide) (by decide) _ _ _ hz]
    rfl
  have hstrip : pyStrip zText ≠ "" := by
    show String.mk (stripL zText.data) ≠ ""
    rw [show zText.data = zChars from rfl, show zChars = List.replicate 4001 'z' from rfl,
      stripL_replicate 4001 'z' (by decide)]
    intro hc
    have h2 : (List.replicate 4001 'z').length = ("" : String).data.length := by
      rw [show (List.replicate 4001 'z') = (String.mk (List.replicate 4001 'z')).data from rfl, hc]
    rw [List.length_replicate] at h2
    exact absurd h2 (by decide)
  have hlow : pyLower zText = String.mk zChars := by
    show String.mk (zText.data.map Char.toLower) = String.mk zChars
    rw [show zText.data = zChars from rfl, show zChars = List.replicate 4001 'z' from rfl,
      List.map_replicate, show Char.toLower 'z' = 'z' from by decide]
  have hdet : detectType (pyLower zText) = "general" := by rw [hlow, detectType_z]
  have hstep : chunkStep ([], [], "general", 0) zText = ([], [zText], "general", zText.length) := by
    simp only [chunkStep]
    rw [if_neg hstrip, hdet]
    rw [if_pos (Or.inr (show 0 + zText.length > MAX_CHUNK_SIZE by
      rw [zText_length]; norm_num [MAX_CHUNK_SIZE]))]
    rw [if_neg (show ¬ (([] : List String) ≠ []) from fun h => h rfl)]
  simp only [create_smart_chunks]
  rw [hpages, List.foldl_cons, List.foldl_nil, hstep]
  rw [if_pos (show ([zText] : List String) ≠ [] from List.cons_ne_nil _ _)]
  rfl

/-- C9 counterexample: a single page of 4001 characters (no page markers,
no cue matches) yields exactly one chunk whose content is the whole
4001-character page, exceeding the 4000-character maximum chunk size. -/
theorem create_smart_chunks_size_cex :
    (create_smart_chunks zText "transcript").map (fun c => c.content.length) = [4001]
    ∧ MAX_CHUNK_SIZE = 4000 := by
  refine ⟨?_, rfl⟩
  rw [create_smart_chunks_z]
  simp only [List.map_cons, List.map_nil]
  rw [zText_length]

theorem sumLens_cons (a : String) (l : List String) :
    sumLens (a :: l) = a.length + sumLens l := by
  simp [sumLens]

theorem sumLens_append (l1 l2 : List String) :
    sumLens (l1 ++ l2) = sumLens l1 + sumLens l2 := by
  simp [sumLens]

theorem joinNL_length : ∀ l : List String, l ≠ [] →
    (joinNL l).length = sumLens l + (l.length - 1) := by
  intro l
  induction l with
  | nil => intro h; exact absurd rfl h
  | cons s rest ih =>
    intro _
    cases rest with
    | nil => simp [joinNL, sumLens]
    | cons t ts =>
      show (s ++ "\n" ++ joinNL (t :: ts)).length = _
      rw [String.length_append, String.length_append, ih (List.cons_ne_nil _ _)]
      simp only [sumLens_cons, List.length_cons]
      have hn : ("\n" : String).length = 1 := rfl
      rw [hn]
      omega

theorem one_le_length_of_ne_empty (s : String) (hs : s ≠ "") : 1 ≤ s.length := by
  cases hd : s.data with
  | nil =>
    exfalso
    apply hs
    have he : s = String.mk s.data := rfl
    rw [hd] at he
    exact he
  | cons c cs =>
    show 1 ≤ s.data.length
    rw [hd]
    simp

theorem length_le_sumLens : ∀ l : List String, (∀ p ∈ l, p ≠ "") → l.length ≤ sumLens l := by
  intro l
  induction l with
  | nil => intro _; simp [sumLens]
  | cons s rest ih =>
    intro h
    rw [sumLens_cons, List.length_cons]
    have h1 := one_le_length_of_ne_empty s (h s (List.mem_cons_self _ _))
    have h2 := ih (fun p hp => h p (List.mem_cons_of_mem _ hp))
    omega

theorem flush_ok (P : List String) (ty : String) (cur : List String) (size : Nat)
    (hne : cur ≠ []) (hinv : curInv P cur size) : chunkOk P ⟨ty, joinNL cur⟩ := by
  obtain ⟨hsz, hmem, hbound⟩ := hinv
  cases cur with
  | nil => exact absurd rfl hne
  | cons p rest =>
    cases rest with
    | nil =>
      right
      show joinNL [p] ∈ P
      exact (hmem p (List.mem_cons_self _ _)).1
    | cons q ts =>
      left
      show (joinNL (p :: q :: ts)).length ≤ 2 * MAX_CHUNK_SIZE - 1
      rw [joinNL_length _ (List.cons_ne_nil _ _)]
      have hlen := length_le_sumLens (p :: q :: ts) (fun x hx => (hmem x hx).2)
      have hb : size ≤ MAX_CHUNK_SIZE := hbound (by simp only [List.length_cons]; omega)
      have hM : MAX_CHUNK_SIZE = 4000 := rfl
      rw [hsz] at hb
      omega

theorem chunkStep_inv (P : List String) (st : ChunkState) (page : String)
    (hp : page ∈ P) (h : chunkInv P st) : chunkInv P (chunkStep st page) := by
  obtain ⟨chunks, cur, ty, size⟩ := st
  obtain ⟨hchunks, hemp, hcur⟩ := h
  dsimp only [chunkInv, curInv] at hchunks hemp hcur ⊢
  simp only [chunkStep]
  by_cases hb : pyStrip page = ""
  · rw [if_pos hb]
    exact ⟨hchunks, hemp, hcur⟩
  · rw [if_neg hb]
    have hpne : page ≠ "" := by
      intro he
      rw [he] at hb
      exact hb rfl
    by_cases hcond : detectType (pyLower page) ≠ ty ∨ size + page.length > MAX_CHUNK_SIZE
    · rw [if_pos hcond]
      refine ⟨?_, ?_, ?_⟩
      · intro ch hch
        by_cases hce : cur ≠ []
        · rw [if_pos hce] at hch
          rcases List.mem_append.mp hch with h1 | h1
          · exact hchunks ch h1
          · rcases List.mem_singleton.mp h1 with rfl
            exact flush_ok P ty cur size hce (hcur hce)
        · rw [if_neg hce] at hch
          exact hchunks ch hch
      · intro he
        simp at he
      · intro _
        refine ⟨by simp [sumLens], ?_, ?_⟩
        · intro p hp2
          rcases List.mem_singleton.mp hp2 with rfl
          exact ⟨hp, hpne⟩
        · intro h2
          simp at h2
    · rw [if_neg hcond]
      push_neg at hcond
      obtain ⟨hdt, hsize⟩ := hcond
      refine ⟨hchunks, ?_, ?_⟩
      · intro he
        simp at he
      · intro _
        by_cases hce : cur = []
        · subst hce
          have hz : size = 0 := hemp rfl
          refine ⟨?_, ?_, ?_⟩
          · rw [hz]
            simp [sumLens]
          · intro p hp2
            simp only [List.nil_append] at hp2
            rcases List.mem_singleton.mp hp2 with rfl
            exact ⟨hp, hpne⟩
          · intro h2
            simp at h2
        · obtain ⟨hsz, hmem, _⟩ := hcur hce
          refine ⟨?_, ?_, ?_⟩
          · rw [hsz, sumLens_append, sumLens_cons]
            simp [sumLens]
          · intro p hp2
            rcases List.mem_append.mp hp2 with h1 | h1
            · exact hmem p h1
            · rcases List.mem_singleton.mp h1 with rfl
              exact ⟨hp, hpne⟩
          · intro _
            exact hsize
    
theorem foldl_chunkStep_inv (P : List String) : ∀ (ps : List String) (st : ChunkState),
    (∀ p ∈ ps, p ∈ P) → chunkInv P st → chunkInv P (ps.foldl chunkStep st) := by
  intro ps
  induction ps with
  | nil => intro st _ h; exact h
  | cons p rest ih =>
    intro st hmem h
    rw [List.foldl_cons]
    exact ih _ (fun q hq => hmem q (List.mem_cons_of_mem _ hq))
      (chunkStep_inv P st p (hmem p (List.mem_cons_self _ _)) h)

/-- C9 (amended): every chunk produced by `create_smart_chunks` either has
content of at most 2·4000−1 characters (pages totalling at most 4000 plus
one newline separator per extra page) or consists of exactly one page of
the split, which may exceed 4000 characters on its own; the original
4000-character bound fails on a single oversized page. -/
theorem create_smart_chunks_size (text doc_type : String) :
    ∀ ch ∈ create_smart_chunks text doc_type,
      ch.content.length ≤ 2 * MAX_CHUNK_SIZE - 1 ∨ ch.content ∈ pagesOf text := by
  intro ch hch
  have hinv := foldl_chunkStep_inv (pagesOf text) (pagesOf text) ([], [], "general", 0)
    (fun p hp => hp)
    ⟨by intro ch2 h2; simp at h2, fun _ => rfl, fun hne => absurd rfl hne⟩
  obtain ⟨hchunks, hemp, hcur⟩ := hinv
  simp only [create_smart_chunks] at hch
  by_cases hc : ((pagesOf text).foldl chunkStep ([], [], "general", 0)).2.1 ≠ []
  · rw [if_pos hc] at hch
    rcases List.mem_append.mp hch with h1 | h1
    · exact hchunks ch h1
    · rcases List.mem_singleton.mp h1 with rfl
      exact flush_ok _ _ _ _ hc (hcur hc)
  · rw [if_neg hc] at hch
    exact hchunks ch hch

theorem create_smart_chunks_size_witness :
    (⟨"general", "hello"⟩ : PChunk).content.length ≤ 2 * MAX_CHUNK_SIZE - 1 ∨
      (⟨"general", "hello"⟩ : PChunk).content ∈ pagesOf "hello" :=
  create_smart_chunks_size "hello" "transcript" ⟨"general", "hello"⟩ (by decide)
